import Mathlib

/-!
Verification of the tiktoken-go BPE tokenizer core (src/codec/codec.go) and the
model-name resolution table (tokenizer.go).

Modelling conventions for the shallow embedding:

* Go strings and byte slices are modelled as `List Nat` (each element a byte value);
  the codec treats text byte-wise, so this is faithful.
* Go `uint` ranks are modelled as `Nat`; the sentinel `math.MaxUint` used by `bpe`
  is the explicit constant `maxUint = 2^64 - 1`, exactly as on a 64-bit platform.
* The vocabulary `map[string]uint` is modelled as an association list with unique
  keys; `vlookup` is map lookup (comma-ok form), and a missing-key read that yields
  the zero value is `(vlookup v p).getD 0`, as in `ids[i] = c.vocabulary[token]`.
* The reverse vocabulary built by `Decode` (`for k, v := range vocabulary`) is
  modelled by `rlookup`, a scan of the same association list; when the rank mapping
  is injective the result is independent of Go's (unspecified) map iteration order.
* The pre-tokenization splitter (`splitRegexp.FindStringMatch` iteration) is an
  external regexp engine, not part of this repository; it is modelled as an abstract
  field `split : List Nat → Option (List (List Nat))`, where `some chunks` is the
  ordered sequence of matches and `none` a matching fault.  Properties that depend
  on the configured grammar (full coverage of the input) appear as hypotheses.
* The `sync.Pool` scratch-buffer reuse of `bpe` is invisible at value level and is
  not modelled; `specialTokens` and `name` are unused by the verified functions.
* The unbounded `for {}` merge loop of `bpe` is `mergeLoopN`, recursion on the
  counter `n`; `bpe` calls it with `n = len(parts)`, and since every iteration
  either breaks or removes one element of `parts`, the counter never runs out
  before the loop's own break (proved below: `mergeLoopN_fuel`), so `mergeLoopN`
  with this argument is exactly the Go loop.
-/

namespace TikToken

/-- Go `math.MaxUint` on a 64-bit platform, the sentinel rank used by `bpe`. -/
def maxUint : Nat := 2 ^ 64 - 1

/-- The vocabulary type `vocab = map[string]uint`: pieces (byte lists) to ranks. -/
abbrev Vocab : Type := List (List Nat × Nat)

/-- Map lookup `c.vocabulary[piece]` in comma-ok form. -/
def vlookup : Vocab → List Nat → Option Nat
  | [], _ => none
  | (q, r) :: rest, p => if q = p then some r else vlookup rest p

/-- Reverse-vocabulary lookup, as built by `Decode`
(`for k, v := range c.vocabulary { reverseVocabulary[v] = k }`).  A scan of the
same table; when ranks are injective this is the Go reverse map regardless of
map iteration order. -/
def rlookup : Vocab → Nat → Option (List Nat)
  | [], _ => none
  | (q, r) :: rest, t => if r = t then some q else rlookup rest t

/-- The largest rank occurring in the vocabulary (0 for an empty one). -/
def maxRank : Vocab → Nat
  | [] => 0
  | (_, r) :: rest => max r (maxRank rest)

/-- The map's keys are unique (a Go map cannot hold duplicate keys). -/
abbrev vocabWF (v : Vocab) : Prop := (v.map Prod.fst).Nodup

/-- The piece-to-rank mapping is injective: no two entries share a rank. -/
abbrev vocabInj (v : Vocab) : Prop := (v.map Prod.snd).Nodup

/-- Go slice expression `piece[a:b]`. -/
def extract (l : List Nat) (a b : Nat) : List Nat := (l.drop a).take (b - a)

/-- One entry of the `parts` boundary array of `bpe`: a byte offset into the
chunk plus the merge score of the span starting there. -/
structure Part where
  offset : Nat
  rank : Nat
deriving DecidableEq

/-- The offset of `parts[i]` (out-of-range reads never occur in guarded code). -/
def offAt (parts : List Part) (i : Nat) : Nat := ((parts[i]?).map Part.offset).getD 0

/-- The assignment `parts[i].rank = r` (offset unchanged). -/
def setRank (parts : List Part) (i : Nat) (r : Nat) : List Part :=
  match parts[i]? with
  | some p => parts.set i ⟨p.offset, r⟩
  | none => parts

/-- The closure `getRank(index, skip)` of `bpe`: the rank of
`piece[parts[index].offset : parts[index+skip+2].offset]`, or `maxUint` when that
span does not exist or is not in the vocabulary. -/
def getRank (v : Vocab) (piece : List Nat) (parts : List Part) (index skip : Nat) : Nat :=
  if index + skip + 2 < parts.length then
    (vlookup v (extract piece (offAt parts index) (offAt parts (index + skip + 2)))).getD maxUint
  else maxUint

/-- The scan `for i, p := range parts[:len(parts)-1] { if p.rank < minRank ... }`:
fold over the list with the running index, accumulator `(minIndex, minRank)`. -/
def scanMin : List Part → Nat → Nat × Nat → Nat × Nat
  | [], _, acc => acc
  | p :: ps, i, acc => scanMin ps (i + 1) (if p.rank < acc.2 then (i, p.rank) else acc)

/-- The minimum-score boundary of one loop iteration of `bpe`:
`minRank, minIndex` after the scan of `parts[:len(parts)-1]`, started at
`(0, math.MaxUint)`. -/
def minBoundary (parts : List Part) : Nat × Nat :=
  scanMin (parts.take (parts.length - 1)) 0 (0, maxUint)

/-- The two re-scoring assignments of one merge iteration:
`parts[minIndex].rank = getRank(minIndex, 1)` and, when `minIndex > 0`,
`parts[minIndex-1].rank = getRank(minIndex-1, 1)` (the second reads the array
after the first write, as in the source; only offsets are read, so the order is
immaterial). -/
def updateRanks (v : Vocab) (piece : List Nat) (parts : List Part) (minIndex : Nat) :
    List Part :=
  let parts1 := setRank parts minIndex (getRank v piece parts minIndex 1)
  if 0 < minIndex then
    setRank parts1 (minIndex - 1) (getRank v piece parts1 (minIndex - 1) 1)
  else parts1

/-- The merge loop `for { ... }` of `bpe`.  The Go loop is unbounded; here it
recurses on a counter that `bpe` sets to the length of `parts`.  Every iteration
either breaks (single span left, or no finite score) or removes exactly one
element, so with that starting counter the `0` case is never reached before a
break (`mergeLoopN_fuel` below makes this precise).  The removal
`parts = append(parts[:minIndex+1], parts[minIndex+2:]...)` is
`eraseIdx (minIndex + 1)`. -/
def mergeLoopN (v : Vocab) (piece : List Nat) : Nat → List Part → List Part
  | 0, parts => parts
  | n + 1, parts =>
    if parts.length = 1 then parts
    else if (minBoundary parts).2 = maxUint then parts
    else
      mergeLoopN v piece n
        ((updateRanks v piece parts (minBoundary parts).1).eraseIdx ((minBoundary parts).1 + 1))

/-- The initial boundary array: `parts[i] = part{i, math.MaxUint}` for
`i = 0 .. len(piece)`, then `parts[i].rank = getRank(i, 0)` for
`i < len(parts)-2`.  Since the initial offsets are the identity,
`getRank(i, 0)` is the rank of `piece[i:i+2]` guarded by `i+2 < len(parts)`,
which is inlined here. -/
def initParts (v : Vocab) (piece : List Nat) : List Part :=
  (List.range (piece.length + 1)).map fun i =>
    ⟨i, if i + 2 < piece.length + 1 then (vlookup v (extract piece i (i + 2))).getD maxUint
        else maxUint⟩

/-- The emission loop of `bpe`: `tokens[i] = piece[parts[i].offset:parts[i+1].offset]`
for consecutive boundary pairs. -/
def tokensOf (piece : List Nat) : List Part → List (List Nat)
  | p :: q :: rest => extract piece p.offset q.offset :: tokensOf piece (q :: rest)
  | _ => []

/-- `func (c *Codec) bpe(piece []byte) ([]uint, []string)`: run the merge loop on
the initial boundary array, then emit `(ids, tokens)`; `ids[i] = c.vocabulary[token]`
is a map read with zero value `0` for a missing key. -/
def bpe (v : Vocab) (piece : List Nat) : List Nat × List (List Nat) :=
  let final := mergeLoopN v piece (piece.length + 1) (initParts v piece)
  ((tokensOf piece final).map fun tok => (vlookup v tok).getD 0, tokensOf piece final)

/-- The `Codec` struct, with the regexp splitter abstracted: `split input` is the
ordered sequence of matches of `splitRegexp` over `input` (`none` = matching
fault).  `specialTokens` and `name` are unused by the verified operations. -/
structure Codec where
  vocabulary : Vocab
  split : List Nat → Option (List (List Nat))

/-- The per-chunk body of `Encode`'s match loop: direct vocabulary hit emits one
token, otherwise the chunk goes through `bpe`; results are appended in order. -/
def encodeChunks (v : Vocab) : List (List Nat) → List Nat × List (List Nat)
  | [] => ([], [])
  | piece :: rest =>
    let head := match vlookup v piece with
      | some id => ([id], [piece])
      | none => bpe v piece
    let tail := encodeChunks v rest
    (head.1 ++ tail.1, head.2 ++ tail.2)

/-- `func (c *Codec) Encode(input string) ([]uint, []string, error)`. -/
def Codec.Encode (c : Codec) (input : List Nat) : Option (List Nat × List (List Nat)) :=
  (c.split input).map fun chunks => encodeChunks c.vocabulary chunks

/-- The per-chunk body of `Count`'s match loop: `count++` on a direct hit,
`count += len(newTokens)` otherwise. -/
def countChunks (v : Vocab) : List (List Nat) → Nat
  | [] => 0
  | piece :: rest =>
    (match vlookup v piece with
      | some _ => 1
      | none => (bpe v piece).2.length) + countChunks v rest

/-- `func (c *Codec) Count(input string) (int, error)`. -/
def Codec.Count (c : Codec) (input : List Nat) : Option Nat :=
  (c.split input).map fun chunks => countChunks c.vocabulary chunks

/-- The loop of `Decode`: resolve each id through the reverse vocabulary, failing
on the first unresolvable id, concatenating pieces in order. -/
def decodeLoop (v : Vocab) : List Nat → Option (List Nat)
  | [] => some []
  | t :: ts =>
    match rlookup v t with
    | none => none
    | some piece => (decodeLoop v ts).map fun out => piece ++ out

/-- `func (c *Codec) Decode(tokens []uint) (string, error)`. -/
def Codec.Decode (c : Codec) (ids : List Nat) : Option (List Nat) :=
  decodeLoop c.vocabulary ids

/-! Model-name resolution (tokenizer.go).  The exact-match table is a Go map
with unique keys (lookup order-independent); the prefix table is iterated by
`for prefix, encoding := range modelPrefixToEncoding`, whose order Go does not
specify, so the scan order is a parameter constrained to be a permutation of
the table. -/

/-- The `modelToEncoding` table, transcribed entry for entry. -/
def modelToEncoding : List (String × String) := [
  ("gpt-4", "cl100k_base"),
  ("gpt-3.5-turbo", "cl100k_base"),
  ("gpt-35-turbo", "cl100k_base"),
  ("davinci-002", "cl100k_base"),
  ("babbage-002", "cl100k_base"),
  ("text-embedding-ada-002", "cl100k_base"),
  ("text-davinci-003", "p50k_base"),
  ("text-davinci-002", "p50k_base"),
  ("text-davinci-001", "r50k_base"),
  ("text-curie-001", "r50k_base"),
  ("text-babbage-001", "r50k_base"),
  ("text-ada-001", "r50k_base"),
  ("davinci", "r50k_base"),
  ("curie", "r50k_base"),
  ("babbage", "r50k_base"),
  ("ada", "r50k_base"),
  ("code-davinci-002", "p50k_base"),
  ("code-davinci-001", "p50k_base"),
  ("code-cushman-002", "p50k_base"),
  ("code-cushman-001", "p50k_base"),
  ("davinci-codex", "p50k_base"),
  ("cushman-codex", "p50k_base"),
  ("text-davinci-edit-001", "p50k_edit"),
  ("code-davinci-edit-001", "p50k_edit"),
  ("text-similarity-davinci-001", "r50k_base"),
  ("text-similarity-curie-001", "r50k_base"),
  ("text-similarity-babbage-001", "r50k_base"),
  ("text-similarity-ada-001", "r50k_base"),
  ("text-search-davinci-doc-001", "r50k_base"),
  ("text-search-curie-doc-001", "r50k_base"),
  ("text-search-babbage-doc-001", "r50k_base"),
  ("text-search-ada-doc-001", "r50k_base"),
  ("code-search-babbage-code-001", "r50k_base"),
  ("code-search-ada-code-001", "r50k_base"),
  ("gpt2", "gpt2")]

/-- The `modelPrefixToEncoding` table, transcribed entry for entry. -/
def modelPrefixToEncoding : List (String × String) := [
  ("gpt-4-", "cl100k_base"),
  ("gpt-3.5-turbo-", "cl100k_base"),
  ("gpt-35-turbo-", "cl100k_base"),
  ("ft:gpt-4", "cl100k_base"),
  ("ft:gpt-3.5-turbo", "cl100k_base"),
  ("ft:davinci-002", "cl100k_base"),
  ("ft:babbage-002", "cl100k_base")]

/-- `strings.HasPrefix`, on the character sequences of the strings. -/
def strIsPrefixOf (p s : String) : Bool := List.isPrefixOf p.data s.data

/-- Go map lookup `modelToEncoding[model]` in comma-ok form. -/
def slookup : List (String × String) → String → Option String
  | [], _ => none
  | (k, e) :: rest, model => if k = model then some e else slookup rest model

/-- The prefix-table loop of `EncodingForModel`: first entry, in scan order,
whose key is a prefix of the model name. -/
def prefixScan : List (String × String) → String → Option (String × String)
  | [], _ => none
  | pe :: rest, model =>
    if strIsPrefixOf pe.1 model then some pe else prefixScan rest model

/-- `func EncodingForModel(model string) (Encoding, error)`: exact-match lookup
first, then the prefix loop over the table in the (unspecified) scan order
`order`; `none` is the `ErrModelNotSupported` error. -/
def EncodingForModel (order : List (String × String)) (model : String) : Option String :=
  match slookup modelToEncoding model with
  | some e => some e
  | none => (prefixScan order model).map Prod.snd

/-- Modelled from the spec: among the prefix-table entries whose key is a
prefix of the model name, the one with the longest key (the spec's
longest-prefix match); `none` when no key matches. -/
def longestMatch (model : String) : List (String × String) → Option (String × String)
  | [] => none
  | pe :: rest =>
    let b := longestMatch model rest
    if strIsPrefixOf pe.1 model then
      match b with
      | none => some pe
      | some q => if q.1.length < pe.1.length then some pe else some q
    else b

/-- Modelled from the spec: exact match first, then longest-prefix match, then
the unsupported-model error. -/
def EncodingForModelSpec (model : String) : Option String :=
  match slookup modelToEncoding model with
  | some e => some e
  | none => (longestMatch model modelPrefixToEncoding).map Prod.snd

/-! Concrete vocabularies and codecs used as witnesses. -/

/-- The toy vocabulary of the specification scenario. -/
def toyVocab : Vocab := [([97], 0), ([98], 1), ([99], 2), ([97, 98], 3), ([97, 98, 99], 4)]

/-- The bytes of the chunk "abc". -/
def abc : List Nat := [97, 98, 99]

/-- A vocabulary holding every single byte 0-255, with rank equal to the byte. -/
def byteVocab : Vocab := (List.range 256).map fun i => ([i], i)

/-- A codec over `byteVocab` whose splitter yields the whole input as one chunk. -/
def byteCodec : Codec := ⟨byteVocab, fun input => some [input]⟩

/-- A two-piece codec whose splitter produces the two covering chunks of the
input "hi". -/
def twoByteCodec : Codec := ⟨[([104], 0), ([105], 1)], fun _ => some [[104], [105]]⟩

/-- An injective vocabulary with no single-byte pieces. -/
def cexVocab : Vocab := [([97, 98], 5)]

/-- A codec over `cexVocab` whose splitter yields the whole input as one chunk. -/
def cexCodec : Codec := ⟨cexVocab, fun input => some [input]⟩

/-- The loop invariant of `bpe` on the boundary array: offsets are monotone,
start at 0 and end at the chunk length, and any boundary with a finite merge
score has a next-next boundary (so the last two entries always score `maxUint`
and the selected merge never removes the final boundary). -/
def partsInv (pieceLen : Nat) (parts : List Part) : Prop :=
  List.Pairwise (· ≤ ·) (parts.map Part.offset) ∧
  (parts.map Part.offset).headD 0 = 0 ∧
  (parts.map Part.offset).getLast? = some pieceLen ∧
  ∀ j p, parts[j]? = some p → p.rank ≠ maxUint → j + 2 < parts.length

/-! Index and slicing utilities used by the loop invariants. -/

theorem getElem?_eraseIdx_lt {α : Type _} :
    ∀ (l : List α) (i j : Nat), j < i → (l.eraseIdx i)[j]? = l[j]?
  | [], _, _, _ => rfl
  | _ :: _, 0, j, h => absurd h (Nat.not_lt_zero j)
  | a :: l, i + 1, 0, _ => by simp [List.eraseIdx_cons_succ]
  | a :: l, i + 1, j + 1, h => by
    simp only [List.eraseIdx_cons_succ, List.getElem?_cons_succ]
    exact getElem?_eraseIdx_lt l i j (Nat.lt_of_succ_lt_succ h)

theorem getElem?_eraseIdx_ge {α : Type _} :
    ∀ (l : List α) (i j : Nat), i ≤ j → (l.eraseIdx i)[j]? = l[j + 1]?
  | [], _, _, _ => by simp
  | a :: l, 0, j, _ => by simp [List.eraseIdx_cons_zero]
  | a :: l, i + 1, 0, h => absurd h (by omega)
  | a :: l, i + 1, j + 1, h => by
    simp only [List.eraseIdx_cons_succ, List.getElem?_cons_succ]
    exact getElem?_eraseIdx_ge l i j (Nat.le_of_succ_le_succ h)

theorem map_eraseIdx {α β : Type _} (f : α → β) :
    ∀ (l : List α) (i : Nat), (l.eraseIdx i).map f = (l.map f).eraseIdx i
  | [], _ => rfl
  | a :: l, 0 => rfl
  | a :: l, i + 1 => by
    simp only [List.eraseIdx_cons_succ, List.map_cons]
    rw [map_eraseIdx f l i]

theorem set_of_getElem?_self {α : Type _} :
    ∀ (l : List α) (i : Nat) (a : α), l[i]? = some a → l.set i a = l
  | [], _, _, h => by simp at h
  | x :: l, 0, a, h => by
    simp only [List.getElem?_cons_zero, Option.some.injEq] at h
    simp [h]
  | x :: l, i + 1, a, h => by
    simp only [List.getElem?_cons_succ] at h
    simp [List.set_cons_succ, set_of_getElem?_self l i a h]

theorem getLast?_eraseIdx {α : Type _} :
    ∀ (l : List α) (i : Nat), i + 1 < l.length → (l.eraseIdx i).getLast? = l.getLast?
  | [], _, h => by simp at h
  | a :: l, 0, h => by
    match l, h with
    | b :: m, _ => simp
  | a :: l, i + 1, h => by
    match l, h with
    | b :: m, h =>
      have hlt : i + 1 < (b :: m).length := by
        simpa [Nat.succ_lt_succ_iff] using h
      have hne : (b :: m).eraseIdx i ≠ [] := by
        have hlen : ((b :: m).eraseIdx i).length = (b :: m).length - 1 :=
          List.length_eraseIdx_of_lt (by omega)
        intro hnil
        have h0 : ((b :: m).eraseIdx i).length = 0 := by rw [hnil]; rfl
        rw [h0] at hlen
        simp only [List.length_cons] at hlen hlt
        omega
      match hE : (b :: m).eraseIdx i, hne with
      | c :: k, _ =>
        have ih := getLast?_eraseIdx (b :: m) i hlt
        rw [hE] at ih
        calc ((a :: b :: m).eraseIdx (i + 1)).getLast?
            = (a :: c :: k).getLast? := by rw [List.eraseIdx_cons_succ, hE]
          _ = (c :: k).getLast? := List.getLast?_cons_cons
          _ = (b :: m).getLast? := ih
          _ = (a :: b :: m).getLast? := List.getLast?_cons_cons.symm

theorem take_add_self {α : Type _} :
    ∀ (l : List α) (m n : Nat), l.take (m + n) = l.take m ++ (l.drop m).take n
  | [], _, _ => by simp
  | a :: l, 0, n => by simp
  | a :: l, m + 1, n => by
    simp only [List.drop_succ_cons]
    rw [Nat.succ_add, List.take_succ_cons, List.take_succ_cons,
      take_add_self l m n, List.cons_append]

theorem extract_glue (l : List Nat) {a b c : Nat} (hab : a ≤ b) (hbc : b ≤ c) :
    extract l a b ++ extract l b c = extract l a c := by
  unfold extract
  have hd : l.drop b = (l.drop a).drop (b - a) := by
    rw [List.drop_drop]
    congr 1
    omega
  rw [hd, ← take_add_self]
  congr 1
  omega

theorem extract_zero_length (l : List Nat) : extract l 0 l.length = l := by
  simp [extract]

theorem extract_same (l : List Nat) (a : Nat) : extract l a a = [] := by
  simp [extract]

/-! Characterization of the minimum scan of one merge iteration. -/

theorem scanMin_le_acc :
    ∀ (ps : List Part) (i : Nat) (acc : Nat × Nat), (scanMin ps i acc).2 ≤ acc.2
  | [], _, _ => Nat.le_refl _
  | p :: ps, i, acc => by
    by_cases h : p.rank < acc.2
    · calc (scanMin (p :: ps) i acc).2
          = (scanMin ps (i + 1) (i, p.rank)).2 := by simp [scanMin, h]
        _ ≤ p.rank := scanMin_le_acc ps (i + 1) (i, p.rank)
        _ ≤ acc.2 := Nat.le_of_lt h
    · calc (scanMin (p :: ps) i acc).2
          = (scanMin ps (i + 1) acc).2 := by simp [scanMin, h]
        _ ≤ acc.2 := scanMin_le_acc ps (i + 1) acc

theorem scanMin_le_all :
    ∀ (ps : List Part) (i : Nat) (acc : Nat × Nat) (j : Nat) (p : Part),
      ps[j]? = some p → (scanMin ps i acc).2 ≤ p.rank
  | [], _, _, j, p, h => by simp at h
  | q :: ps, i, acc, 0, p, h => by
    simp only [List.getElem?_cons_zero, Option.some.injEq] at h
    subst h
    have hrec : scanMin (q :: ps) i acc
        = scanMin ps (i + 1) (if q.rank < acc.2 then (i, q.rank) else acc) := rfl
    by_cases hlt : q.rank < acc.2
    · rw [hrec, if_pos hlt]
      exact scanMin_le_acc ps (i + 1) (i, q.rank)
    · rw [hrec, if_neg hlt]
      exact Nat.le_trans (scanMin_le_acc ps (i + 1) acc) (Nat.le_of_not_lt hlt)
  | q :: ps, i, acc, j + 1, p, h => by
    simp only [List.getElem?_cons_succ] at h
    have hrec : scanMin (q :: ps) i acc
        = scanMin ps (i + 1) (if q.rank < acc.2 then (i, q.rank) else acc) := rfl
    rw [hrec]
    exact scanMin_le_all ps (i + 1) _ j p h

theorem scanMin_attained :
    ∀ (ps : List Part) (i : Nat) (acc : Nat × Nat),
      scanMin ps i acc = acc ∨
      ∃ j p, ps[j]? = some p ∧ (scanMin ps i acc).1 = i + j ∧
        (scanMin ps i acc).2 = p.rank ∧ (scanMin ps i acc).2 < acc.2 ∧
        ∀ k q, k < j → ps[k]? = some q → (scanMin ps i acc).2 < q.rank
  | [], _, _ => Or.inl rfl
  | p :: ps, i, acc => by
    by_cases h : p.rank < acc.2
    · have hrw : scanMin (p :: ps) i acc = scanMin ps (i + 1) (i, p.rank) := by
        show scanMin ps (i + 1) (if p.rank < acc.2 then (i, p.rank) else acc)
            = scanMin ps (i + 1) (i, p.rank)
        rw [if_pos h]
      rcases scanMin_attained ps (i + 1) (i, p.rank) with heq | ⟨j, q, hj, h1, h2, h3, h4⟩
      · refine Or.inr ⟨0, p, by simp, ?_, ?_, ?_, ?_⟩
        · rw [hrw, heq]; simp
        · rw [hrw, heq]
        · rw [hrw, heq]; exact h
        · intro k _ hk _; omega
      · refine Or.inr ⟨j + 1, q, by simpa using hj, ?_, ?_, ?_, ?_⟩
        · rw [hrw, h1]; omega
        · rw [hrw, h2]
        · rw [hrw]; exact Nat.lt_trans h3 h
        · intro k r hk hkr
          match k, hkr with
          | 0, hkr =>
            simp only [List.getElem?_cons_zero, Option.some.injEq] at hkr
            rw [hrw, ← hkr]
            exact h3
          | k + 1, hkr =>
            simp only [List.getElem?_cons_succ] at hkr
            rw [hrw]
            exact h4 k r (by omega) hkr
    · have hrw : scanMin (p :: ps) i acc = scanMin ps (i + 1) acc := by
        show scanMin ps (i + 1) (if p.rank < acc.2 then (i, p.rank) else acc)
            = scanMin ps (i + 1) acc
        rw [if_neg h]
      rcases scanMin_attained ps (i + 1) acc with heq | ⟨j, q, hj, h1, h2, h3, h4⟩
      · exact Or.inl (by rw [hrw, heq])
      · refine Or.inr ⟨j + 1, q, by simpa using hj, ?_, ?_, ?_, ?_⟩
        · rw [hrw, h1]; omega
        · rw [hrw, h2]
        · rw [hrw]; exact h3
        · intro k r hk hkr
          match k, hkr with
          | 0, hkr =>
            simp only [List.getElem?_cons_zero, Option.some.injEq] at hkr
            rw [hrw, ← hkr]
            exact Nat.lt_of_lt_of_le h3 (Nat.le_of_not_lt h)
          | k + 1, hkr =>
            simp only [List.getElem?_cons_succ] at hkr
            rw [hrw]
            exact h4 k r (by omega) hkr

/-! Properties of the selected boundary of one merge iteration. -/

theorem minBoundary_sel (parts : List Part) (h2 : (minBoundary parts).2 ≠ maxUint) :
    (minBoundary parts).1 + 1 < parts.length ∧
    (∃ p, parts[(minBoundary parts).1]? = some p ∧ p.rank = (minBoundary parts).2) ∧
    (∀ j q, j < parts.length - 1 → parts[j]? = some q → (minBoundary parts).2 ≤ q.rank) ∧
    (∀ k q, k < (minBoundary parts).1 → parts[k]? = some q →
      (minBoundary parts).2 < q.rank) := by
  have hattn := scanMin_attained (parts.take (parts.length - 1)) 0 (0, maxUint)
  rcases hattn with heq | ⟨j, p, hj, h1, hr, _, h4⟩
  · exact absurd (congrArg Prod.snd heq) h2
  · have hjlt : j < (parts.take (parts.length - 1)).length := by
      rcases List.getElem?_eq_some_iff.mp hj with ⟨hlt, _⟩
      exact hlt
    rw [List.length_take] at hjlt
    have hjlen : j < parts.length - 1 := lt_of_lt_of_le hjlt (min_le_left _ _)
    have hmi : (minBoundary parts).1 = j := by simpa using h1
    have htk : ∀ m, m < parts.length - 1 →
        (parts.take (parts.length - 1))[m]? = parts[m]? := by
      intro m hm
      exact List.getElem?_take_of_lt hm
    refine ⟨by omega, ⟨p, ?_, ?_⟩, ?_, ?_⟩
    · rw [hmi, ← htk j hjlen]
      exact hj
    · exact hr.symm
    · intro j' q hj' hq
      exact scanMin_le_all _ 0 (0, maxUint) j' q (by rw [htk j' hj']; exact hq)
    · intro k q hk hq
      rw [hmi] at hk
      exact h4 k q hk (by rw [htk k (by omega)]; exact hq)

/-! Shape lemmas for `setRank`, `updateRanks` and the merge loop. -/

theorem length_setRank (parts : List Part) (i r : Nat) :
    (setRank parts i r).length = parts.length := by
  unfold setRank
  cases parts[i]? <;> simp

theorem length_updateRanks (v : Vocab) (piece : List Nat) (parts : List Part) (mi : Nat) :
    (updateRanks v piece parts mi).length = parts.length := by
  unfold updateRanks
  by_cases h : 0 < mi <;> simp [h, length_setRank]

theorem getElem?_setRank_ne (parts : List Part) (i j r : Nat) (h : i ≠ j) :
    (setRank parts i r)[j]? = parts[j]? := by
  unfold setRank
  cases hp : parts[i]?
  · rfl
  · exact List.getElem?_set_ne h

theorem getElem?_setRank_self (parts : List Part) (i r : Nat) (p : Part)
    (hp : parts[i]? = some p) : (setRank parts i r)[i]? = some ⟨p.offset, r⟩ := by
  unfold setRank
  rw [hp]
  exact List.getElem?_set_self (List.getElem?_eq_some_iff.mp hp).1

theorem map_offset_setRank (parts : List Part) (i r : Nat) :
    (setRank parts i r).map Part.offset = parts.map Part.offset := by
  unfold setRank
  cases hp : parts[i]?
  · rfl
  · rw [List.map_set]
    exact set_of_getElem?_self _ i _ (by simp [hp])

theorem map_offset_updateRanks (v : Vocab) (piece : List Nat) (parts : List Part) (mi : Nat) :
    (updateRanks v piece parts mi).map Part.offset = parts.map Part.offset := by
  unfold updateRanks
  by_cases h : 0 < mi <;> simp [h, map_offset_setRank]

theorem getElem?_updateRanks_gt (v : Vocab) (piece : List Nat) (parts : List Part)
    (mi j : Nat) (h : mi < j) : (updateRanks v piece parts mi)[j]? = parts[j]? := by
  unfold updateRanks
  by_cases h0 : 0 < mi
  · simp only [if_pos h0]
    rw [getElem?_setRank_ne _ _ _ _ (by omega), getElem?_setRank_ne _ _ _ _ (by omega)]
  · simp only [if_neg h0]
    rw [getElem?_setRank_ne _ _ _ _ (by omega)]

theorem getElem?_updateRanks_self (v : Vocab) (piece : List Nat) (parts : List Part)
    (mi : Nat) (p : Part) (hp : parts[mi]? = some p) :
    (updateRanks v piece parts mi)[mi]? = some ⟨p.offset, getRank v piece parts mi 1⟩ := by
  unfold updateRanks
  by_cases h0 : 0 < mi
  · simp only [if_pos h0]
    rw [getElem?_setRank_ne _ _ _ _ (by omega)]
    exact getElem?_setRank_self parts mi _ p hp
  · simp only [if_neg h0]
    exact getElem?_setRank_self parts mi _ p hp

theorem mergeLoopN_stop (v : Vocab) (piece : List Nat) (n : Nat) (parts : List Part)
    (h : parts.length = 1 ∨ (minBoundary parts).2 = maxUint) :
    mergeLoopN v piece n parts = parts := by
  cases n with
  | zero => rfl
  | succ n =>
    rcases h with h | h
    · simp [mergeLoopN, h]
    · unfold mergeLoopN
      by_cases h1 : parts.length = 1 <;> simp [h1, h]

theorem mergeLoopN_step (v : Vocab) (piece : List Nat) (n : Nat) (parts : List Part)
    (h1 : parts.length ≠ 1) (h2 : (minBoundary parts).2 ≠ maxUint) :
    mergeLoopN v piece (n + 1) parts =
      mergeLoopN v piece n
        ((updateRanks v piece parts (minBoundary parts).1).eraseIdx
          ((minBoundary parts).1 + 1)) := by
  show (if parts.length = 1 then parts
      else if (minBoundary parts).2 = maxUint then parts
      else mergeLoopN v piece n
        ((updateRanks v piece parts (minBoundary parts).1).eraseIdx
          ((minBoundary parts).1 + 1))) = _
  rw [if_neg h1, if_neg h2]

theorem length_erase_step (v : Vocab) (piece : List Nat) (parts : List Part)
    (h2 : (minBoundary parts).2 ≠ maxUint) :
    ((updateRanks v piece parts (minBoundary parts).1).eraseIdx
        ((minBoundary parts).1 + 1)).length + 1 = parts.length := by
  have hsel := (minBoundary_sel parts h2).1
  rw [List.length_eraseIdx_of_lt (by rw [length_updateRanks]; exact hsel),
    length_updateRanks]
  omega

theorem getElem?_updateRanks_ne (v : Vocab) (piece : List Nat) (parts : List Part)
    (mi j : Nat) (hne1 : j ≠ mi) (hne2 : j ≠ mi - 1) :
    (updateRanks v piece parts mi)[j]? = parts[j]? := by
  unfold updateRanks
  by_cases h0 : 0 < mi
  · simp only [if_pos h0]
    rw [getElem?_setRank_ne _ _ _ _ (fun h => hne2 h.symm),
      getElem?_setRank_ne _ _ _ _ (fun h => hne1 h.symm)]
  · simp only [if_neg h0]
    rw [getElem?_setRank_ne _ _ _ _ (fun h => hne1 h.symm)]

theorem getElem?_updateRanks_prev (v : Vocab) (piece : List Nat) (parts : List Part)
    (mi : Nat) (h0 : 0 < mi) (q : Part) (hq : parts[mi - 1]? = some q) :
    (updateRanks v piece parts mi)[mi - 1]? =
      some ⟨q.offset,
        getRank v piece (setRank parts mi (getRank v piece parts mi 1)) (mi - 1) 1⟩ := by
  unfold updateRanks
  simp only [if_pos h0]
  exact getElem?_setRank_self _ (mi - 1) _ q
    (by rw [getElem?_setRank_ne _ _ _ _ (by omega)]; exact hq)

theorem getRank_ne_max_guard (v : Vocab) (piece : List Nat) (parts : List Part)
    (index skip : Nat) (h : getRank v piece parts index skip ≠ maxUint) :
    index + skip + 2 < parts.length := by
  by_contra hguard
  exact h (by unfold getRank; rw [if_neg hguard])

/-! Preservation of the loop invariant by one merge iteration. -/

theorem minBoundary_nil : (minBoundary ([] : List Part)).2 = maxUint := rfl

theorem inv_step (v : Vocab) (piece : List Nat) (parts : List Part)
    (hinv : partsInv piece.length parts)
    (h2 : (minBoundary parts).2 ≠ maxUint) :
    partsInv piece.length
      ((updateRanks v piece parts (minBoundary parts).1).eraseIdx
        ((minBoundary parts).1 + 1)) := by
  obtain ⟨hpw, hhead, hlast, hrk⟩ := hinv
  obtain ⟨hlt, ⟨pm, hpm, hpmrank⟩, hmin, hleft⟩ := minBoundary_sel parts h2
  have hmi2 : (minBoundary parts).1 + 2 < parts.length :=
    hrk _ pm hpm (by rw [hpmrank]; exact h2)
  have hBlen : ((updateRanks v piece parts (minBoundary parts).1).eraseIdx
      ((minBoundary parts).1 + 1)).length + 1 = parts.length :=
    length_erase_step v piece parts h2
  have hBmap : ((updateRanks v piece parts (minBoundary parts).1).eraseIdx
        ((minBoundary parts).1 + 1)).map Part.offset =
      (parts.map Part.offset).eraseIdx ((minBoundary parts).1 + 1) := by
    rw [map_eraseIdx, map_offset_updateRanks]
  refine ⟨?_, ?_, ?_, ?_⟩
  · rw [hBmap]
    exact List.Pairwise.sublist (List.eraseIdx_sublist _ _) hpw
  · rw [hBmap]
    rcases hM : parts.map Part.offset with _ | ⟨o, os⟩
    · rw [hM] at hlast
      simp at hlast
    · rw [hM] at hhead
      simp only [List.eraseIdx_cons_succ, List.headD_cons] at hhead ⊢
      exact hhead
  · rw [hBmap]
    rw [getLast?_eraseIdx _ _ (by rw [List.length_map]; omega)]
    exact hlast
  · intro j p hj hrank
    by_cases hcase : j < (minBoundary parts).1 + 1
    · have hA : (updateRanks v piece parts (minBoundary parts).1)[j]? = some p := by
        rw [← getElem?_eraseIdx_lt _ ((minBoundary parts).1 + 1) j hcase]
        exact hj
      by_cases hj_mi : j = (minBoundary parts).1
      · rw [hj_mi] at hA
        rw [getElem?_updateRanks_self v piece parts _ pm hpm] at hA
        rw [Option.some.injEq] at hA
        have hg := getRank_ne_max_guard v piece parts (minBoundary parts).1 1
          (by rw [← hA] at hrank; exact hrank)
        omega
      · by_cases hj_prev : j = (minBoundary parts).1 - 1 ∧ 0 < (minBoundary parts).1
        · obtain ⟨hjp, h0⟩ := hj_prev
          rcases hq : parts[(minBoundary parts).1 - 1]? with _ | q
          · rw [List.getElem?_eq_none_iff] at hq
            omega
          · rw [hjp] at hA
            rw [getElem?_updateRanks_prev v piece parts _ h0 q hq] at hA
            rw [Option.some.injEq] at hA
            have hg := getRank_ne_max_guard v piece
              (setRank parts (minBoundary parts).1
                (getRank v piece parts (minBoundary parts).1 1))
              ((minBoundary parts).1 - 1) 1
              (by rw [← hA] at hrank; exact hrank)
            rw [length_setRank] at hg
            omega
        · have hA2 : parts[j]? = some p := by
            rw [getElem?_updateRanks_ne v piece parts _ j hj_mi
              (by rcases Nat.eq_zero_or_pos (minBoundary parts).1 with h0 | h0
                  · omega
                  · intro hc
                    exact hj_prev ⟨hc, h0⟩)] at hA
            exact hA
          have hold := hrk j p hA2 hrank
          have hj_le : j + 2 ≤ (minBoundary parts).1 := by
            rcases Nat.eq_zero_or_pos (minBoundary parts).1 with h0 | h0
            · omega
            · have : j ≠ (minBoundary parts).1 - 1 := fun hc => hj_prev ⟨hc, h0⟩
              omega
          omega
    · have hge : (minBoundary parts).1 + 1 ≤ j := by omega
      have hA : (updateRanks v piece parts (minBoundary parts).1)[j + 1]? = some p := by
        rw [← getElem?_eraseIdx_ge _ ((minBoundary parts).1 + 1) j hge]
        exact hj
      rw [getElem?_updateRanks_ne v piece parts _ (j + 1) (by omega) (by omega)] at hA
      have hold := hrk (j + 1) p hA hrank
      omega

theorem inv_loop (v : Vocab) (piece : List Nat) :
    ∀ (n : Nat) (parts : List Part), partsInv piece.length parts →
      partsInv piece.length (mergeLoopN v piece n parts)
  | 0, parts, hinv => hinv
  | n + 1, parts, hinv => by
    by_cases h1 : parts.length = 1
    · rw [mergeLoopN_stop v piece _ parts (Or.inl h1)]
      exact hinv
    · by_cases h2 : (minBoundary parts).2 = maxUint
      · rw [mergeLoopN_stop v piece _ parts (Or.inr h2)]
        exact hinv
      · rw [mergeLoopN_step v piece n parts h1 h2]
        exact inv_loop v piece n _ (inv_step v piece parts hinv h2)

/-! The merge loop always breaks before the counter runs out. -/

theorem minBoundary_of_length_zero (parts : List Part) (h : parts.length = 0) :
    (minBoundary parts).2 = maxUint := by
  rw [List.length_eq_zero.mp h]
  rfl

theorem mergeLoopN_fuel (v : Vocab) (piece : List Nat) :
    ∀ (n m : Nat) (parts : List Part), parts.length ≤ n → parts.length ≤ m →
      mergeLoopN v piece n parts = mergeLoopN v piece m parts
  | 0, m, parts, hn, _ => by
    have h0 : parts.length = 0 := by omega
    rw [mergeLoopN_stop v piece m parts (Or.inr (minBoundary_of_length_zero parts h0))]
    rfl
  | n + 1, m, parts, hn, hm => by
    by_cases h1 : parts.length = 1
    · rw [mergeLoopN_stop v piece _ parts (Or.inl h1),
        mergeLoopN_stop v piece m parts (Or.inl h1)]
    · by_cases h2 : (minBoundary parts).2 = maxUint
      · rw [mergeLoopN_stop v piece _ parts (Or.inr h2),
          mergeLoopN_stop v piece m parts (Or.inr h2)]
      · have hlen2 : 2 ≤ parts.length := by
          rcases Nat.lt_or_ge parts.length 2 with h | h
          · have h01 : parts.length = 0 ∨ parts.length = 1 := by omega
            rcases h01 with h0 | h0
            · exact absurd (minBoundary_of_length_zero parts h0) h2
            · exact absurd h0 h1
          · exact h
        cases m with
        | zero => omega
        | succ m =>
          rw [mergeLoopN_step v piece n parts h1 h2,
            mergeLoopN_step v piece m parts h1 h2]
          have hB := length_erase_step v piece parts h2
          exact mergeLoopN_fuel v piece n m _ (by omega) (by omega)

/-! The invariant holds for the initial boundary array. -/

theorem map_offset_initParts (v : Vocab) (piece : List Nat) :
    (initParts v piece).map Part.offset = List.range (piece.length + 1) := by
  unfold initParts
  rw [List.map_map]
  have h : (Part.offset ∘ fun i =>
      (⟨i, if i + 2 < piece.length + 1 then (vlookup v (extract piece i (i + 2))).getD maxUint
           else maxUint⟩ : Part)) = fun i => i := funext fun i => rfl
  rw [h]
  simp

theorem length_initParts (v : Vocab) (piece : List Nat) :
    (initParts v piece).length = piece.length + 1 := by
  unfold initParts
  rw [List.length_map, List.length_range]

theorem inv_init (v : Vocab) (piece : List Nat) :
    partsInv piece.length (initParts v piece) := by
  refine ⟨?_, ?_, ?_, ?_⟩
  · rw [map_offset_initParts]
    exact List.pairwise_le_range _
  · rw [map_offset_initParts, List.range_succ_eq_map]
    rfl
  · rw [map_offset_initParts, List.range_succ]
    exact List.getLast?_concat _
  · intro j p hj hrank
    unfold initParts at hj
    rw [List.getElem?_map] at hj
    rcases hR : (List.range (piece.length + 1))[j]? with _ | i
    · rw [hR] at hj
      simp at hj
    · rw [hR] at hj
      have hjlt : j < piece.length + 1 := by
        have := (List.getElem?_eq_some_iff.mp hR).1
        rwa [List.length_range] at this
      have hi : i = j := by
        rw [List.getElem?_range hjlt] at hR
        cases hR
        rfl
      subst hi
      simp only [Option.map_some'] at hj
      rw [Option.some.injEq] at hj
      rw [← hj] at hrank
      by_cases hg : i + 2 < piece.length + 1
      · rw [length_initParts]
        omega
      · exact absurd (show Part.rank ⟨i, _⟩ = maxUint from by rw [if_neg hg]) hrank

/-! Concatenating the emitted tokens reconstructs the slice between the first
and last boundary offsets. -/

theorem join_tokensOf :
    ∀ (parts : List Part) (piece : List Nat) (lastOff : Nat),
      List.Pairwise (· ≤ ·) (parts.map Part.offset) →
      (parts.map Part.offset).getLast? = some lastOff →
      (tokensOf piece parts).flatten =
        extract piece ((parts.map Part.offset).headD 0) lastOff
  | [], piece, lastOff, _, hlast => by simp at hlast
  | [p], piece, lastOff, _, hlast => by
    have hoff : p.offset = lastOff := by simpa using hlast
    show ([] : List (List Nat)).flatten = extract piece ([p.offset].headD 0) lastOff
    rw [List.flatten_nil, List.headD_cons, ← hoff, extract_same]
  | p :: q :: rest, piece, lastOff, hpw, hlast => by
    simp only [List.map_cons] at hpw hlast
    have hpq : p.offset ≤ q.offset := (List.pairwise_cons.mp hpw).1 q.offset (by simp)
    have hpw' : List.Pairwise (· ≤ ·) ((q :: rest).map Part.offset) := by
      simp only [List.map_cons]
      exact (List.pairwise_cons.mp hpw).2
    have hlast' : ((q :: rest).map Part.offset).getLast? = some lastOff := by
      simp only [List.map_cons]
      rw [← List.getLast?_cons_cons (a := p.offset)]
      exact hlast
    have hql : q.offset ≤ lastOff := by
      have hmem := List.mem_of_getLast?_eq_some hlast'
      simp only [List.map_cons, List.mem_cons] at hmem
      rcases hmem with he | hm
      · omega
      · have hpw'' := hpw'
        simp only [List.map_cons] at hpw''
        exact (List.pairwise_cons.mp hpw'').1 lastOff hm
    have ih := join_tokensOf (q :: rest) piece lastOff hpw' hlast'
    show (extract piece p.offset q.offset :: tokensOf piece (q :: rest)).flatten
        = extract piece ((p.offset :: (q :: rest).map Part.offset).headD 0) lastOff
    rw [List.flatten_cons, ih]
    simp only [List.map_cons, List.headD_cons]
    exact extract_glue piece hpq hql

theorem bpe_snd_flatten (v : Vocab) (piece : List Nat) :
    ((bpe v piece).2).flatten = piece := by
  have hinv := inv_loop v piece (piece.length + 1) (initParts v piece) (inv_init v piece)
  obtain ⟨hpw, hhead, hlast, _⟩ := hinv
  show (tokensOf piece (mergeLoopN v piece (piece.length + 1) (initParts v piece))).flatten
      = piece
  rw [join_tokensOf _ piece piece.length hpw hlast, hhead]
  exact extract_zero_length piece

theorem bpe_fst_eq_map (v : Vocab) (piece : List Nat) :
    (bpe v piece).1 = (bpe v piece).2.map fun tok => (vlookup v tok).getD 0 := rfl

theorem bpe_length_eq (v : Vocab) (piece : List Nat) :
    (bpe v piece).1.length = (bpe v piece).2.length := by
  rw [bpe_fst_eq_map, List.length_map]

/-! Per-chunk facts lifted over the whole `Encode`/`Count` traversal. -/

theorem encodeChunks_fst_eq (v : Vocab) :
    ∀ chunks, (encodeChunks v chunks).1 =
      (encodeChunks v chunks).2.map fun tok => (vlookup v tok).getD 0
  | [] => rfl
  | piece :: rest => by
    have ih := encodeChunks_fst_eq v rest
    cases hv : vlookup v piece with
    | none =>
      simp only [encodeChunks, hv, List.map_append, ih, bpe_fst_eq_map]
    | some id =>
      simp only [encodeChunks, hv, List.map_append, ih, List.map_cons, List.map_nil]
      rfl

theorem encodeChunks_snd_flatten (v : Vocab) :
    ∀ chunks, ((encodeChunks v chunks).2).flatten = chunks.flatten
  | [] => rfl
  | piece :: rest => by
    have ih := encodeChunks_snd_flatten v rest
    cases hv : vlookup v piece with
    | none =>
      simp only [encodeChunks, hv, List.flatten_append, ih, bpe_snd_flatten,
        List.flatten_cons]
    | some id =>
      simp only [encodeChunks, hv, List.flatten_append, ih, List.flatten_cons,
        List.flatten_nil, List.append_nil]

theorem countChunks_eq (v : Vocab) :
    ∀ chunks, countChunks v chunks = (encodeChunks v chunks).1.length
  | [] => rfl
  | piece :: rest => by
    have ih := countChunks_eq v rest
    cases hv : vlookup v piece with
    | none =>
      simp only [countChunks, hv, encodeChunks, List.length_append, ih,
        bpe_length_eq, bpe_fst_eq_map, List.length_map]
    | some id =>
      simp only [countChunks, hv, encodeChunks, List.length_append, ih]
      rfl

/-! Reverse lookup and the decode loop. -/

theorem vlookup_mem :
    ∀ (v : Vocab) (p : List Nat) (r : Nat), vlookup v p = some r → (p, r) ∈ v
  | [], _, _, h => by simp [vlookup] at h
  | (q, s) :: rest, p, r, h => by
    unfold vlookup at h
    by_cases hqp : q = p
    · rw [if_pos hqp] at h
      rw [Option.some.injEq] at h
      subst hqp
      subst h
      exact List.mem_cons_self _ _
    · rw [if_neg hqp] at h
      exact List.mem_cons_of_mem _ (vlookup_mem rest p r h)

theorem rlookup_vlookup :
    ∀ (v : Vocab), vocabInj v → ∀ (p : List Nat) (r : Nat),
      vlookup v p = some r → rlookup v r = some p
  | [], _, _, _, h => by simp [vlookup] at h
  | (q, s) :: rest, hinj, p, r, h => by
    have hnd : s ∉ (rest.map Prod.snd) ∧ (rest.map Prod.snd).Nodup := by
      have := hinj
      simp only [vocabInj, List.map_cons, List.nodup_cons] at this
      exact this
    unfold vlookup at h
    by_cases hqp : q = p
    · rw [if_pos hqp] at h
      rw [Option.some.injEq] at h
      unfold rlookup
      rw [if_pos h, hqp]
    · rw [if_neg hqp] at h
      have hsr : s ≠ r := by
        intro he
        subst he
        exact hnd.1 (List.mem_map.mpr ⟨(p, s), vlookup_mem rest p s h, rfl⟩)
      unfold rlookup
      rw [if_neg hsr]
      exact rlookup_vlookup rest hnd.2 p r h

theorem decodeLoop_cons (v : Vocab) (t : Nat) (ts : List Nat) :
    decodeLoop v (t :: ts) =
      match rlookup v t with
      | none => none
      | some piece => (decodeLoop v ts).map fun out => piece ++ out := rfl

theorem decodeLoop_eq_none_iff (v : Vocab) :
    ∀ ids, decodeLoop v ids = none ↔ ∃ t ∈ ids, rlookup v t = none
  | [] => by simp [decodeLoop]
  | t :: ts => by
    rw [decodeLoop_cons]
    cases hr : rlookup v t with
    | none =>
      constructor
      · intro _
        exact ⟨t, List.mem_cons_self t ts, hr⟩
      · intro _
        rfl
    | some piece =>
      have ih := decodeLoop_eq_none_iff v ts
      rw [Option.map_eq_none', ih]
      constructor
      · rintro ⟨x, hx, hxn⟩
        exact ⟨x, List.mem_cons_of_mem t hx, hxn⟩
      · rintro ⟨x, hx, hxn⟩
        rcases List.mem_cons.mp hx with he | hm
        · subst he
          rw [hr] at hxn
          exact Option.noConfusion hxn
        · exact ⟨x, hm, hxn⟩

theorem decodeLoop_resolves (v : Vocab) :
    ∀ ids, (∀ t ∈ ids, (rlookup v t).isSome) →
      decodeLoop v ids = some ((ids.map fun t => (rlookup v t).getD []).flatten)
  | [], _ => rfl
  | t :: ts, hall => by
    obtain ⟨p, hp⟩ := Option.isSome_iff_exists.mp (hall t (List.mem_cons_self t ts))
    have ih := decodeLoop_resolves v ts fun x hx => hall x (List.mem_cons_of_mem t hx)
    rw [decodeLoop_cons, hp, ih]
    simp [hp]

theorem decodeLoop_map_ranks (v : Vocab) (hinj : vocabInj v) :
    ∀ (tokens : List (List Nat)), (∀ tok ∈ tokens, (vlookup v tok).isSome) →
      decodeLoop v (tokens.map fun tok => (vlookup v tok).getD 0) = some tokens.flatten
  | [], _ => rfl
  | tok :: rest, hall => by
    obtain ⟨r, hr⟩ := Option.isSome_iff_exists.mp (hall tok (List.mem_cons_self tok rest))
    have hrl := rlookup_vlookup v hinj tok r hr
    have ih := decodeLoop_map_ranks v hinj rest fun x hx => hall x (List.mem_cons_of_mem tok hx)
    have hid : (vlookup v tok).getD 0 = r := by rw [hr]; rfl
    rw [List.map_cons, decodeLoop_cons, hid, hrl, ih]
    rfl

/-! Bounds on ranks for the unknown-id property of `Decode`. -/

theorem rank_le_maxRank :
    ∀ (v : Vocab) (q : List Nat) (r : Nat), (q, r) ∈ v → r ≤ maxRank v
  | [], _, _, h => by simp at h
  | (q', r') :: rest, q, r, h => by
    rcases List.mem_cons.mp h with he | hm
    · rw [Prod.mk.injEq] at he
      show r ≤ max r' (maxRank rest)
      omega
    · have := rank_le_maxRank rest q r hm
      show r ≤ max r' (maxRank rest)
      omega

theorem rlookup_none_of_gt :
    ∀ (v : Vocab) (t : Nat), (∀ q r, (q, r) ∈ v → r < t) → rlookup v t = none
  | [], _, _ => rfl
  | (q, r) :: rest, t, h => by
    unfold rlookup
    rw [if_neg (by have := h q r (List.mem_cons_self _ _); omega)]
    exact rlookup_none_of_gt rest t fun q' r' hm => h q' r' (List.mem_cons_of_mem _ hm)

theorem rlookup_maxRank_succ (v : Vocab) : rlookup v (maxRank v + 1) = none :=
  rlookup_none_of_gt v _ fun q r hm => by
    have := rank_le_maxRank v q r hm
    omega

/-! Lookup in the all-bytes vocabulary. -/

theorem vlookup_cons (q : List Nat) (s : Nat) (rest : Vocab) (p : List Nat) :
    vlookup ((q, s) :: rest) p = if q = p then some s else vlookup rest p := rfl

theorem vlookup_append_some :
    ∀ (v1 v2 : Vocab) (p : List Nat) (r : Nat),
      vlookup v1 p = some r → vlookup (v1 ++ v2) p = some r
  | [], _, _, _, h => by simp [vlookup] at h
  | (q, s) :: rest, v2, p, r, h => by
    rw [vlookup_cons] at h
    rw [List.cons_append, vlookup_cons]
    by_cases hqp : q = p
    · rwa [if_pos hqp] at h ⊢
    · rw [if_neg hqp] at h ⊢
      exact vlookup_append_some rest v2 p r h

theorem vlookup_append_none :
    ∀ (v1 v2 : Vocab) (p : List Nat),
      vlookup v1 p = none → vlookup (v1 ++ v2) p = vlookup v2 p
  | [], _, _, _ => rfl
  | (q, s) :: rest, v2, p, h => by
    rw [vlookup_cons] at h
    rw [List.cons_append, vlookup_cons]
    by_cases hqp : q = p
    · rw [if_pos hqp] at h
      exact Option.noConfusion h
    · rw [if_neg hqp] at h ⊢
      exact vlookup_append_none rest v2 p h

theorem vlookup_range_none :
    ∀ (n b : Nat), n ≤ b →
      vlookup ((List.range n).map fun i => ([i], i)) [b] = none
  | 0, _, _ => rfl
  | n + 1, b, h => by
    rw [List.range_succ, List.map_append,
      vlookup_append_none _ _ _ (vlookup_range_none n b (by omega))]
    show (if [n] = [b] then some n else none) = none
    rw [if_neg (by intro hc; rw [List.cons.injEq] at hc; omega)]

theorem vlookup_range_some :
    ∀ (n b : Nat), b < n →
      vlookup ((List.range n).map fun i => ([i], i)) [b] = some b
  | 0, _, h => absurd h (Nat.not_lt_zero _)
  | n + 1, b, h => by
    rw [List.range_succ, List.map_append]
    by_cases hb : b < n
    · exact vlookup_append_some _ _ _ _ (vlookup_range_some n b hb)
    · have hbn : b = n := by omega
      rw [vlookup_append_none _ _ _ (vlookup_range_none n b (by omega))]
      show (if [n] = [b] then some n else none) = some b
      rw [if_pos (by rw [hbn]), hbn]

/-! Properties of the prefix scan and of the longest-prefix specification. -/

theorem prefixScan_eq_none_iff :
    ∀ (l : List (String × String)) (model : String),
      prefixScan l model = none ↔ ∀ pe ∈ l, strIsPrefixOf pe.1 model = false
  | [], model => by simp [prefixScan]
  | pe :: rest, model => by
    by_cases h : strIsPrefixOf pe.1 model
    · simp only [prefixScan, if_pos h]
      constructor
      · intro hc
        exact Option.noConfusion hc
      · intro hall
        rw [hall pe (List.mem_cons_self _ _)] at h
        exact absurd h (by simp)
    · simp only [prefixScan, if_neg h]
      rw [prefixScan_eq_none_iff rest model]
      constructor
      · intro hall q hq
        rcases List.mem_cons.mp hq with he | hm
        · subst he
          exact Bool.eq_false_iff.mpr h
        · exact hall q hm
      · intro hall q hq
        exact hall q (List.mem_cons_of_mem _ hq)

theorem prefixScan_some_mem :
    ∀ (l : List (String × String)) (model : String) (pe : String × String),
      prefixScan l model = some pe → pe ∈ l ∧ strIsPrefixOf pe.1 model = true
  | [], model, pe, h => by simp [prefixScan] at h
  | q :: rest, model, pe, h => by
    by_cases hq : strIsPrefixOf q.1 model
    · rw [show prefixScan (q :: rest) model = some q from by
        simp only [prefixScan, if_pos hq]] at h
      rw [Option.some.injEq] at h
      subst h
      exact ⟨List.mem_cons_self _ _, hq⟩
    · rw [show prefixScan (q :: rest) model = prefixScan rest model from by
        simp only [prefixScan, if_neg hq]] at h
      obtain ⟨hm, hp⟩ := prefixScan_some_mem rest model pe h
      exact ⟨List.mem_cons_of_mem _ hm, hp⟩

theorem longestMatch_eq_none_iff :
    ∀ (model : String) (l : List (String × String)),
      longestMatch model l = none ↔ ∀ pe ∈ l, strIsPrefixOf pe.1 model = false
  | model, [] => by simp [longestMatch]
  | model, pe :: rest => by
    by_cases h : strIsPrefixOf pe.1 model
    · have hsome : ∃ b, longestMatch model (pe :: rest) = some b := by
        show ∃ b, (if strIsPrefixOf pe.1 model then
            match longestMatch model rest with
            | none => some pe
            | some q => if q.1.length < pe.1.length then some pe else some q
          else longestMatch model rest) = some b
        rw [if_pos h]
        cases longestMatch model rest with
        | none => exact ⟨pe, rfl⟩
        | some q =>
          by_cases hl : q.1.length < pe.1.length
          · exact ⟨pe, by
              show (if q.1.length < pe.1.length then some pe else some q) = some pe
              rw [if_pos hl]⟩
          · exact ⟨q, by
              show (if q.1.length < pe.1.length then some pe else some q) = some q
              rw [if_neg hl]⟩
      obtain ⟨b, hb⟩ := hsome
      rw [hb]
      constructor
      · intro hc
        exact Option.noConfusion hc
      · intro hall
        rw [hall pe (List.mem_cons_self _ _)] at h
        exact absurd h (by simp)
    · have hrw : longestMatch model (pe :: rest) = longestMatch model rest := by
        show (if strIsPrefixOf pe.1 model then
            match longestMatch model rest with
            | none => some pe
            | some q => if q.1.length < pe.1.length then some pe else some q
          else longestMatch model rest) = longestMatch model rest
        rw [if_neg h]
      rw [hrw, longestMatch_eq_none_iff model rest]
      constructor
      · intro hall q hq
        rcases List.mem_cons.mp hq with he | hm
        · subst he
          exact Bool.eq_false_iff.mpr h
        · exact hall q hm
      · intro hall q hq
        exact hall q (List.mem_cons_of_mem _ hq)

theorem longestMatch_some_mem :
    ∀ (model : String) (l : List (String × String)) (b : String × String),
      longestMatch model l = some b → b ∈ l ∧ strIsPrefixOf b.1 model = true
  | model, [], b, h => by simp [longestMatch] at h
  | model, pe :: rest, b, h => by
    by_cases hp : strIsPrefixOf pe.1 model
    · rw [show longestMatch model (pe :: rest) =
          (match longestMatch model rest with
            | none => some pe
            | some q => if q.1.length < pe.1.length then some pe else some q) from by
        show (if strIsPrefixOf pe.1 model then _ else _) = _
        rw [if_pos hp]] at h
      cases hl : longestMatch model rest with
      | none =>
        rw [hl] at h
        rw [Option.some.injEq] at h
        subst h
        exact ⟨List.mem_cons_self _ _, hp⟩
      | some q =>
        rw [hl] at h
        obtain ⟨hqm, hqp⟩ := longestMatch_some_mem model rest q hl
        have h2 : (if q.1.length < pe.1.length then some pe else some q) = some b := h
        by_cases hlen : q.1.length < pe.1.length
        · rw [if_pos hlen, Option.some.injEq] at h2
          subst h2
          exact ⟨List.mem_cons_self _ _, hp⟩
        · rw [if_neg hlen, Option.some.injEq] at h2
          subst h2
          exact ⟨List.mem_cons_of_mem _ hqm, hqp⟩
    · rw [show longestMatch model (pe :: rest) = longestMatch model rest from by
        show (if strIsPrefixOf pe.1 model then _ else _) = _
        rw [if_neg hp]] at h
      obtain ⟨hm, hpp⟩ := longestMatch_some_mem model rest b h
      exact ⟨List.mem_cons_of_mem _ hm, hpp⟩

theorem modelPrefix_values :
    ∀ pe ∈ modelPrefixToEncoding, pe.2 = "cl100k_base" := by decide

/-! Claim theorems. -/

/-- Claim C1, counterexample: on the injective vocabulary `{"ab" -> 5}` and a
splitter that yields the whole input as one covering chunk, `Encode "x"`
succeeds with ids `[0]` (the zero-value id of the unknown piece "x"), yet
`Decode [0]` fails, so `Decode (Encode t).ids = t` does not hold even though the
vocabulary is injective and `Encode` returned no error. -/
theorem roundtrip_counterexample :
    vocabWF cexCodec.vocabulary ∧ vocabInj cexCodec.vocabulary ∧
    cexCodec.split [120] = some [[120]] ∧ ([[120]] : List (List Nat)).flatten = [120] ∧
    cexCodec.Encode [120] = some ([0], [[120]]) ∧
    cexCodec.Decode [0] = none := by decide

/-- Claim C1, amended: if additionally every piece emitted by `Encode` is
present in the vocabulary (which the single-byte coverage invariant of real
vocabularies guarantees) and the splitter's chunks cover the input, then
`Decode` inverts `Encode`. -/
theorem decode_inverts_encode (c : Codec) (t : List Nat) (r : List Nat × List (List Nat))
    (_hwf : vocabWF c.vocabulary) (hinj : vocabInj c.vocabulary)
    (henc : c.Encode t = some r)
    (hcov : ∀ chunks, c.split t = some chunks → chunks.flatten = t)
    (hknown : ∀ tok ∈ r.2, (vlookup c.vocabulary tok).isSome) :
    c.Decode r.1 = some t := by
  unfold Codec.Encode at henc
  cases hs : c.split t with
  | none =>
    rw [hs] at henc
    exact Option.noConfusion henc
  | some chunks =>
    rw [hs] at henc
    simp only [Option.map_some'] at henc
    rw [Option.some.injEq] at henc
    have hflat : (r.2).flatten = t := by
      rw [← henc, encodeChunks_snd_flatten]
      exact hcov chunks hs
    have hids : r.1 = r.2.map fun tok => (vlookup c.vocabulary tok).getD 0 := by
      rw [← henc]
      exact encodeChunks_fst_eq c.vocabulary chunks
    unfold Codec.Decode
    rw [hids, decodeLoop_map_ranks c.vocabulary hinj r.2 hknown, hflat]

/-- Witness for the amended C1 at a concrete codec and input. -/
theorem decode_inverts_encode_witness :
    twoByteCodec.Decode [0, 1] = some [104, 105] :=
  decode_inverts_encode twoByteCodec [104, 105] ([0, 1], [[104], [105]])
    (by decide) (by decide) (by decide)
    (fun chunks hc => by
      injection hc with h2
      rw [← h2]
      decide)
    (by decide)

/-- Claim C2 (confirmed): `Count` fails exactly when `Encode` fails, and on
success returns exactly the length of the id list of `Encode`. -/
theorem count_matches_encode (c : Codec) (t : List Nat) :
    ((c.Count t = none) ↔ (c.Encode t = none)) ∧
    (∀ r, c.Encode t = some r → c.Count t = some r.1.length) := by
  unfold Codec.Count Codec.Encode
  cases hs : c.split t with
  | none => simp
  | some chunks =>
    simp only [Option.map_some']
    refine ⟨by simp, ?_⟩
    intro r hr
    rw [Option.some.injEq] at hr
    rw [← hr, countChunks_eq]

/-- Witness for C2 at a concrete codec and input. -/
theorem count_matches_encode_witness : twoByteCodec.Count [104, 105] = some 2 := by
  have h := (count_matches_encode twoByteCodec [104, 105]).2
    ([0, 1], [[104], [105]]) (by decide)
  exact h.trans (by decide)

/-- Claim C3 (confirmed): concatenating the pieces emitted by the merge engine
reconstructs the chunk, and consequently, when the splitter's chunks cover the
input, concatenating the pieces of `Encode` reconstructs the input. -/
theorem concat_pieces_reconstructs (v : Vocab) (piece : List Nat) :
    ((bpe v piece).2).flatten = piece ∧
    ∀ (c : Codec) (t : List Nat) (chunks : List (List Nat))
      (r : List Nat × List (List Nat)),
      c.split t = some chunks → chunks.flatten = t → c.Encode t = some r →
      (r.2).flatten = t := by
  refine ⟨bpe_snd_flatten v piece, ?_⟩
  intro c t chunks r hsplit hcov henc
  unfold Codec.Encode at henc
  rw [hsplit] at henc
  simp only [Option.map_some'] at henc
  rw [Option.some.injEq] at henc
  rw [← henc, encodeChunks_snd_flatten]
  exact hcov

/-- Witness for C3 at a concrete chunk and a concrete codec. -/
theorem concat_pieces_reconstructs_witness :
    ((bpe toyVocab abc).2).flatten = abc ∧
    ([[104], [105]] : List (List Nat)).flatten = [104, 105] := by
  have h := concat_pieces_reconstructs toyVocab abc
  refine ⟨h.1, ?_⟩
  exact h.2 twoByteCodec [104, 105] [[104], [105]] ([0, 1], [[104], [105]])
    rfl (by decide) (by decide)

/-- Claim C4 (confirmed): when the loop takes a step, the collapsed boundary is
one attaining the minimum merge score of all boundaries except the last, ties
broken by the lowest index (every earlier boundary scores strictly higher); the
loop leaves `parts` unchanged when only one span remains or no boundary has a
finite score. -/
theorem merge_selects_leftmost_min (v : Vocab) (piece : List Nat) (parts : List Part)
    (h1 : parts.length ≠ 1) (h2 : (minBoundary parts).2 ≠ maxUint) :
    ((minBoundary parts).1 + 1 < parts.length ∧
      (∃ p, parts[(minBoundary parts).1]? = some p ∧ p.rank = (minBoundary parts).2) ∧
      (∀ j q, j < parts.length - 1 → parts[j]? = some q →
        (minBoundary parts).2 ≤ q.rank) ∧
      (∀ k q, k < (minBoundary parts).1 → parts[k]? = some q →
        (minBoundary parts).2 < q.rank) ∧
      ∀ n, mergeLoopN v piece (n + 1) parts =
        mergeLoopN v piece n
          ((updateRanks v piece parts (minBoundary parts).1).eraseIdx
            ((minBoundary parts).1 + 1))) ∧
    ∀ (parts' : List Part) (n : Nat),
      parts'.length = 1 ∨ (minBoundary parts').2 = maxUint →
      mergeLoopN v piece n parts' = parts' := by
  obtain ⟨ha, hb, hc, hd⟩ := minBoundary_sel parts h2
  exact ⟨⟨ha, hb, hc, hd, fun n => mergeLoopN_step v piece n parts h1 h2⟩,
    fun parts' n h => mergeLoopN_stop v piece n parts' h⟩

/-- Witness for C4 on the toy scenario's initial boundary array. -/
theorem merge_selects_leftmost_min_witness :
    (minBoundary (initParts toyVocab abc)).1 + 1 < (initParts toyVocab abc).length ∧
    mergeLoopN toyVocab abc 3 (initParts toyVocab abc) =
      mergeLoopN toyVocab abc 2
        ((updateRanks toyVocab abc (initParts toyVocab abc)
            (minBoundary (initParts toyVocab abc)).1).eraseIdx
          ((minBoundary (initParts toyVocab abc)).1 + 1)) := by
  have h := merge_selects_leftmost_min toyVocab abc (initParts toyVocab abc)
    (by decide) (by decide)
  exact ⟨h.1.1, h.1.2.2.2.2 2⟩

/-- Claim C5 (confirmed): on the toy vocabulary, encoding the chunk "abc" first
scores boundary 0 ("a","b") with 3 while ("b","c") is unrankable, merges there,
rescores the merged span ("ab","c") with 4, merges again, and emits exactly
`([4], ["abc"])`. -/
theorem toy_abc_merge_scenario :
    (initParts toyVocab abc).map Part.rank = [3, maxUint, maxUint, maxUint] ∧
    minBoundary (initParts toyVocab abc) = (0, 3) ∧
    ((updateRanks toyVocab abc (initParts toyVocab abc) 0).eraseIdx 1).map Part.rank
      = [4, maxUint, maxUint] ∧
    minBoundary ((updateRanks toyVocab abc (initParts toyVocab abc) 0).eraseIdx 1)
      = (0, 4) ∧
    bpe toyVocab abc = ([4], [abc]) := by decide

/-- Claim C6 (confirmed): on a codec whose vocabulary contains every one-byte
piece and whose splitter yields the single covering chunk, encoding a one-byte
string emits exactly one token whose piece is that byte. -/
theorem encode_single_byte (c : Codec) (b : Nat) (hb : b < 256)
    (hcov : ∀ b' : Nat, b' < 256 → (vlookup c.vocabulary [b']).isSome)
    (hsplit : c.split [b] = some [[b]]) :
    ∃ r, vlookup c.vocabulary [b] = some r ∧ c.Encode [b] = some ([r], [[b]]) := by
  obtain ⟨r, hr⟩ := Option.isSome_iff_exists.mp (hcov b hb)
  refine ⟨r, hr, ?_⟩
  unfold Codec.Encode
  rw [hsplit]
  simp only [Option.map_some']
  rw [Option.some.injEq]
  show encodeChunks c.vocabulary [[b]] = ([r], [[b]])
  simp [encodeChunks, hr]

/-- Witness for C6 on the all-bytes codec at byte 42. -/
theorem encode_single_byte_witness :
    42 < 256 ∧ ∃ r, vlookup byteCodec.vocabulary [42] = some r ∧
      byteCodec.Encode [42] = some ([r], [[42]]) :=
  ⟨by decide,
    encode_single_byte byteCodec 42 (by decide)
      (fun b' hb' => by
        have h := vlookup_range_some 256 b' hb'
        show (vlookup byteVocab [b']).isSome
        rw [show vlookup byteVocab [b'] = some b' from h]
        rfl)
      rfl⟩

/-- Claim C7 (confirmed): `Decode` fails exactly when some id has no piece in
the reverse vocabulary (no best-effort output); when every id resolves it returns
the resolved pieces concatenated in input order; and the id `idMax + 1`, one
past the largest rank, always fails to decode. -/
theorem decode_unknown_token (c : Codec) (ids : List Nat) :
    (c.Decode ids = none ↔ ∃ t ∈ ids, rlookup c.vocabulary t = none) ∧
    ((∀ t ∈ ids, (rlookup c.vocabulary t).isSome) →
      c.Decode ids = some ((ids.map fun t => (rlookup c.vocabulary t).getD []).flatten)) ∧
    c.Decode [maxRank c.vocabulary + 1] = none := by
  refine ⟨decodeLoop_eq_none_iff c.vocabulary ids,
    decodeLoop_resolves c.vocabulary ids, ?_⟩
  unfold Codec.Decode
  rw [decodeLoop_cons, rlookup_maxRank_succ]

/-- Witness for C7 on a concrete codec: a successful decode and the failing
decode of the id one past the largest rank. -/
theorem decode_unknown_token_witness :
    twoByteCodec.Decode [maxRank twoByteCodec.vocabulary + 1] = none ∧
    twoByteCodec.Decode [0, 1] = some [104, 105] := by
  refine ⟨(decode_unknown_token twoByteCodec [0, 1]).2.2, ?_⟩
  have h := (decode_unknown_token twoByteCodec [0, 1]).2.1 (by decide)
  exact h.trans (by decide)

/-- Claim C8 (confirmed): for every scan order of the prefix table and every
model name, `EncodingForModel` returns the exact-match entry when present,
otherwise the encoding of the longest matching prefix (every matching order
gives that same result because all prefix entries carry one encoding), and
otherwise the unsupported-model error, i.e. it coincides with the
exact-then-longest-prefix specification function. -/
theorem model_resolution_longest (order : List (String × String)) (model : String)
    (hperm : order.Perm modelPrefixToEncoding) :
    EncodingForModel order model = EncodingForModelSpec model := by
  unfold EncodingForModel EncodingForModelSpec
  cases hex : slookup modelToEncoding model with
  | some e => rfl
  | none =>
    cases hf : prefixScan order model with
    | none =>
      rw [prefixScan_eq_none_iff] at hf
      have hnone : longestMatch model modelPrefixToEncoding = none := by
        rw [longestMatch_eq_none_iff]
        intro pe hpe
        exact hf pe (hperm.mem_iff.mpr hpe)
      rw [hnone]
    | some a =>
      obtain ⟨hmem, hpref⟩ := prefixScan_some_mem order model a hf
      have hmem2 : a ∈ modelPrefixToEncoding := hperm.mem_iff.mp hmem
      have ha : a.2 = "cl100k_base" := modelPrefix_values a hmem2
      cases hl : longestMatch model modelPrefixToEncoding with
      | none =>
        rw [longestMatch_eq_none_iff] at hl
        rw [hl a hmem2] at hpref
        exact absurd hpref (by simp)
      | some b =>
        obtain ⟨hbmem, _⟩ := longestMatch_some_mem model modelPrefixToEncoding b hl
        have hb : b.2 = "cl100k_base" := modelPrefix_values b hbmem
        simp [ha, hb]

/-- Witness for C8 at the table's own order and a prefixed model name. -/
theorem model_resolution_longest_witness :
    EncodingForModel modelPrefixToEncoding ("gpt-4-0314")
      = EncodingForModelSpec ("gpt-4-0314") :=
  model_resolution_longest modelPrefixToEncoding ("gpt-4-0314") (List.Perm.refl _)

/-- Claim C9 (confirmed): started with counter equal to the boundary-array
length, one loop step either returns `parts` unchanged (a break) or removes
exactly one boundary and continues with the counter again equal to the array
length; and the result is independent of any larger counter, so the unbounded
Go loop terminates with this value. -/
theorem merge_loop_terminates (v : Vocab) (piece : List Nat) (n : Nat)
    (parts : List Part) (hn : n = parts.length) :
    (mergeLoopN v piece n parts = parts ∨
      ∃ parts' : List Part, parts'.length + 1 = parts.length ∧
        mergeLoopN v piece n parts = mergeLoopN v piece parts'.length parts') ∧
    (∀ m, parts.length ≤ m →
      mergeLoopN v piece m parts = mergeLoopN v piece parts.length parts) := by
  subst hn
  constructor
  · by_cases h1 : parts.length = 1
    · exact Or.inl (mergeLoopN_stop v piece _ parts (Or.inl h1))
    · by_cases h2 : (minBoundary parts).2 = maxUint
      · exact Or.inl (mergeLoopN_stop v piece _ parts (Or.inr h2))
      · refine Or.inr ⟨(updateRanks v piece parts (minBoundary parts).1).eraseIdx
          ((minBoundary parts).1 + 1), length_erase_step v piece parts h2, ?_⟩
        have hB := length_erase_step v piece parts h2
        rw [← hB]
        exact mergeLoopN_step v piece _ parts h1 h2
  · intro m hm
    exact mergeLoopN_fuel v piece m parts.length parts hm (Nat.le_refl _)

/-- Witness for C9 on the toy scenario's initial boundary array. -/
theorem merge_loop_terminates_witness :
    (mergeLoopN toyVocab abc 4 (initParts toyVocab abc) = initParts toyVocab abc ∨
      ∃ parts' : List Part, parts'.length + 1 = (initParts toyVocab abc).length ∧
        mergeLoopN toyVocab abc 4 (initParts toyVocab abc)
          = mergeLoopN toyVocab abc parts'.length parts') ∧
    mergeLoopN toyVocab abc 10 (initParts toyVocab abc)
      = mergeLoopN toyVocab abc (initParts toyVocab abc).length
          (initParts toyVocab abc) := by
  have h := merge_loop_terminates toyVocab abc 4 (initParts toyVocab abc) (by decide)
  exact ⟨h.1, h.2 10 (by decide)⟩

/-- Claim C10 (confirmed): `Encode` succeeds exactly when the splitter
succeeds (its only error path), and when a final span's piece is absent from
the vocabulary the merge engine emits the map's zero value 0 as its id rather
than failing. -/
theorem unknown_piece_id_zero (c : Codec) (t : List Nat) (v : Vocab)
    (piece : List Nat) :
    ((c.Encode t).isSome ↔ (c.split t).isSome) ∧
    (∀ (i : Nat) (tok : List Nat), (bpe v piece).2[i]? = some tok →
      vlookup v tok = none → (bpe v piece).1[i]? = some 0) := by
  constructor
  · unfold Codec.Encode
    cases c.split t <;> simp
  · intro i tok htok hmiss
    rw [bpe_fst_eq_map, List.getElem?_map, htok]
    simp [hmiss]

/-- Witness for C10: the unknown piece "x" of the counterexample vocabulary is
emitted with id 0, and that codec's `Encode` succeeds whenever its splitter
does. -/
theorem unknown_piece_id_zero_witness :
    (bpe cexVocab [120]).1[0]? = some 0 ∧
    ((cexCodec.Encode [120]).isSome ↔ (cexCodec.split [120]).isSome) := by
  have h := unknown_piece_id_zero cexCodec [120] cexVocab [120]
  exact ⟨h.2 0 [120] (by decide) (by decide), h.1⟩

end TikToken
